import Mathlib

/-! # libclamav/table.c : a case-insensitive string-to-int table

A shallow embedding of `src/libclamav/table.c`.  The table is a singly linked
chain of entries searched linearly with `strcasecmp`; `tableRemove` nulls the
key of an entry and `tableInsert` may reuse such an entry.

Conventions of the embedding

* A `char *` is an `Option String`: `none` is the NULL pointer, `some s` points
  to the NUL-terminated array whose contents (the bytes before the terminator)
  are `s`.
* A call that dereferences a NULL pointer, or that is stopped by a failed
  `assert` in a `CL_DEBUG` build, has no result: the functions return `Option`
  and `none` stands for such a call.
* `int` values are only stored, compared and returned, never computed with, so
  they are `Int`.
* The functions other than `tableIterate` require a non-NULL `table`
  (`assert(table != NULL)` and an unguarded dereference in `tableInsert`), so
  they take the struct itself; `tableIterate` tests `table == NULL` and takes an
  `Option`.
-/

namespace Table

/-! ## libc and the allocator -/

/-- The function `tolower` of the C locale: only `A`..`Z` are changed. -/
def tolower (c : Char) : Char :=
  if 'A' ≤ c ∧ c ≤ 'Z' then Char.ofNat (c.toNat + 32) else c

/-- The comparison loop of `strcasecmp` on the contents of two strings: the
first position where the folded characters differ decides, and the terminator
(the end of the list) compares below every character. -/
def strcasecmpAux : List Char → List Char → Int
  | [], [] => 0
  | [], _ :: _ => -1
  | _ :: _, [] => 1
  | a :: s, b :: t =>
    if tolower a = tolower b then strcasecmpAux s t
    else ((tolower a).toNat : Int) - ((tolower b).toNat : Int)

/-- The call `strcasecmp(s1, s2)`; it reads through both pointers, so a NULL
argument gives no result. -/
def strcasecmp (s1 s2 : Option String) : Option Int :=
  match s1, s2 with
  | some a, some b => some (strcasecmpAux a.data b.data)
  | _, _ => none

/-- What the surroundings of one call decide: whether asserts are compiled in
(`CL_DEBUG`), and whether `cli_calloc`, `cli_malloc` and `strdup` return memory
(`true`) or NULL (`false`). -/
structure Env where
  CL_DEBUG : Bool
  cli_calloc : Bool
  cli_malloc : Bool
  strdup : Bool
  deriving DecidableEq

/-- The call `strdup(s)`: no result for a NULL argument, else a pointer to a
copy of the string, or NULL when memory is exhausted. -/
def strdup (env : Env) (s : Option String) : Option (Option String) :=
  match s with
  | none => none
  | some k => if env.strdup then some (some k) else some none

/-! ## The data model (table.h) -/

/-- Modelled from the spec: the declaration of `tableEntry` in table.h, which
is not part of the sources at hand.  A node of the chain has its `key` (NULL
once deleted) and its `value`; the `next` pointer is the position of the node
in the list `table.tableHead`. -/
structure tableEntry where
  key : Option String
  value : Int
  deriving DecidableEq

/-- Modelled from the spec: the declaration of `struct table` in table.h, which
is not part of the sources at hand.  `tableHead` is the chain of nodes reached
from the head pointer along `next`.  `tableLast` is `true` when the pointer
`tableLast` is non-NULL, and it then points to the final node of the chain (it
is only ever assigned the node just appended, or NULL).  `flags` is the bit
`TABLE_HAS_DELETED_ENTRIES` of the flags word, the only bit table.c touches. -/
structure table where
  tableHead : List tableEntry
  tableLast : Bool
  flags : Bool
  deriving DecidableEq

/-! ## The functions of table.c -/

/-- The zero-filled `struct table` that `cli_calloc(1, sizeof(struct table))`
hands out. -/
def tableZero : table := { tableHead := [], tableLast := false, flags := false }

/-- The function `tableCreate` (lines 40-44): the result of `cli_calloc`, which
is NULL when the allocation fails. -/
def tableCreate (env : Env) : Option table :=
  if env.cli_calloc then some tableZero else none

/-- The loop of `tableFind` (lines 140-150). -/
def findLoop (key : String) : List tableEntry → Option Int
  | [] => some (-1)
  | e :: rest =>
    match strcasecmp e.key (some key) with
    | none => none
    | some r => if r = 0 then some e.value else findLoop key rest

/-- The function `tableFind` (lines 120-153). -/
def tableFind (t : table) (key : Option String) : Option Int :=
  match key with
  | none => some (-1)
  | some k => if t.tableHead.isEmpty then some (-1) else findLoop k t.tableHead

/-- The loop of `tableInsert` that reuses deleted items (lines 89-95).  The
outer `Option` is the call having a result at all, the inner one is the loop
returning from `tableInsert` (with the changed chain) rather than running off
the end of the chain. -/
def reuseLoop (env : Env) (key : Option String) (value : Int) :
    List tableEntry → Option (Option (List tableEntry))
  | [] => some none
  | e :: rest =>
    match e.key with
    | none => (strdup env key).map fun k => some ({ key := k, value := value } :: rest)
    | some _ => (reuseLoop env key value rest).map (Option.map (e :: ·))

/-- Lines 100-113 of `tableInsert`: a node is appended to the chain.  `flags`
is the flag bit as lines 86-98 left it. -/
def appendEntry (env : Env) (t : table) (flags : Bool) (key : Option String) (value : Int) :
    Option (Int × table) :=
  if t.tableHead.isEmpty then
    if env.cli_malloc then
      (strdup env key).map fun k =>
        (value, { tableHead := [{ key := k, value := value }], tableLast := true, flags := flags })
    else some (-1, { tableHead := [], tableLast := false, flags := flags })
  else if t.tableLast then
    if env.cli_malloc then
      (strdup env key).map fun k =>
        (value, { tableHead := t.tableHead ++ [{ key := k, value := value }],
                  tableLast := true, flags := flags })
    else some (-1, { tableHead := t.tableHead, tableLast := false, flags := flags })
  else none

/-- The function `tableInsert` (lines 73-114): the returned `int` and the table
as the call leaves it. -/
def tableInsert (env : Env) (t : table) (key : Option String) (value : Int) :
    Option (Int × table) :=
  match tableFind t key with
  | none => none
  | some v =>
    if v > 0 then some (if v = value then value else -1, t)
    else if env.CL_DEBUG && value == -1 then none
    else if t.flags then
      match reuseLoop env key value t.tableHead with
      | none => none
      | some (some chain) => some (value, { t with tableHead := chain })
      | some none => appendEntry env t false key value
    else appendEntry env t t.flags key value

/-- The loop of `tableUpdate` (lines 173-177); the two `Option`s are as in
`reuseLoop`. -/
def updateLoop (key : String) (new_value : Int) :
    List tableEntry → Option (Option (List tableEntry))
  | [] => some none
  | e :: rest =>
    match strcasecmp e.key (some key) with
    | none => none
    | some r =>
      if r = 0 then some (some ({ e with value := new_value } :: rest))
      else (updateLoop key new_value rest).map (Option.map (e :: ·))

/-- The function `tableUpdate` (lines 159-181). -/
def tableUpdate (env : Env) (t : table) (key : Option String) (new_value : Int) :
    Option (Int × table) :=
  match key with
  | none => some (-1, t)
  | some k =>
    if t.tableHead.isEmpty then tableInsert env t key new_value
    else
      match updateLoop k new_value t.tableHead with
      | none => none
      | some (some chain) => some (new_value, { t with tableHead := chain })
      | some none => tableInsert env t key new_value

/-- The loop of `tableRemove` (lines 200-206): the chain and the flag bit as
the loop leaves them, `flags` being the bit on entry. -/
def removeLoop (key : String) (flags : Bool) : List tableEntry → Option (List tableEntry × Bool)
  | [] => some ([], flags)
  | e :: rest =>
    match strcasecmp e.key (some key) with
    | none => none
    | some r =>
      if r = 0 then
        (removeLoop key true rest).map fun p => ({ e with key := none } :: p.1, p.2)
      else (removeLoop key flags rest).map fun p => (e :: p.1, p.2)

/-- The function `tableRemove` (lines 186-207): the table as the call leaves
it. -/
def tableRemove (t : table) (key : Option String) : Option table :=
  match key with
  | none => some t
  | some k =>
    if t.tableHead.isEmpty then some t
    else
      (removeLoop k t.flags t.tableHead).map fun p =>
        { t with tableHead := p.1, flags := p.2 }

/-- The loop of `tableIterate` (lines 221-223).  The callback reads the key and
the value it is handed and acts on a state `σ` of its own. -/
def iterateLoop {σ : Type} (callback : String → Int → σ → σ) : List tableEntry → σ → σ
  | [], s => s
  | e :: rest, s =>
    match e.key with
    | some k => iterateLoop callback rest (callback k e.value s)
    | none => iterateLoop callback rest s

/-- The function `tableIterate` (lines 209-225). -/
def tableIterate {σ : Type} (table : Option table) (callback : String → Int → σ → σ) (s : σ) : σ :=
  match table with
  | none => s
  | some t => if t.tableHead.isEmpty then s else iterateLoop callback t.tableHead s

/-! ## Vocabulary of the statements -/

/-- Two strings are equal ignoring ASCII case: they fold to the same
characters. -/
def caseEq (a b : String) : Bool :=
  decide (a.data.map tolower = b.data.map tolower)

/-- The entry is live and its key equals `k` ignoring ASCII case. -/
def keyMatches (k : String) (e : tableEntry) : Bool :=
  match e.key with
  | some s => caseEq s k
  | none => false

/-- The entry is a tombstone: its key is NULL. -/
def isTombstone (e : tableEntry) : Bool := e.key.isNone

/-- The chain holds no tombstone. -/
def NoTombstone (t : table) : Prop := ∀ e ∈ t.tableHead, isTombstone e = false

/-- The allocator serves the call: `cli_malloc` and `strdup` return memory. -/
def Env.serves (env : Env) : Prop := env.cli_malloc = true ∧ env.strdup = true

/-- A callback that records the pair it is handed at the end of a log. -/
def record (k : String) (v : Int) (log : List (String × Int)) : List (String × Int) :=
  log ++ [(k, v)]

/-- The calls `tableIterate` makes, in order, as (key, value) pairs. -/
def visits (table : Option table) : List (String × Int) :=
  tableIterate table record []

/-- The live entries of a chain, in chain order, as (key, value) pairs. -/
def livePairs (chain : List tableEntry) : List (String × Int) :=
  chain.filterMap fun e => e.key.map fun k => (k, e.value)

/-- The entry that a successful `tableInsert` of the pair writes. -/
def entryOf (c : String × Int) : tableEntry := { key := some c.1, value := c.2 }

/-- A sequence of `tableInsert` calls with non-NULL keys, each on the table the
previous call left; the result is the table after the final call. -/
def insertAll (env : Env) : table → List (String × Int) → Option table
  | t, [] => some t
  | t, c :: calls =>
    match tableInsert env t (some c.1) c.2 with
    | none => none
    | some r => insertAll env r.2 calls

/-- What `tableRemove` with key `k` makes of an entry: a matching entry loses
its key, any other entry is kept. -/
def entomb (k : String) (e : tableEntry) : tableEntry :=
  if keyMatches k e then { e with key := none } else e

/-- The pointer `tableLast` is usable: it is non-NULL unless the chain is
empty. -/
def LastValid (t : table) : Prop := t.tableHead ≠ [] → t.tableLast = true

/-- One call of the mutating interface, with the surroundings it runs in. -/
inductive Call where
  | insert (env : Env) (key : Option String) (value : Int)
  | update (env : Env) (key : Option String) (new_value : Int)
  | remove (key : Option String)

/-- The table a call leaves, when the call has a result. -/
def step (t : table) : Call → Option table
  | Call.insert env key value => (tableInsert env t key value).map Prod.snd
  | Call.update env key new_value => (tableUpdate env t key new_value).map Prod.snd
  | Call.remove key => tableRemove t key

/-- A sequence of calls, each on the table the previous call left; there is a
result when every call has one. -/
def run : table → List Call → Option table
  | t, [] => some t
  | t, c :: calls =>
    match step t c with
    | none => none
    | some t1 => run t1 calls

/-- The table is reachable: `tableCreate` followed by a sequence of calls that
all satisfy `P` leaves it. -/
def Reachable (P : Call → Prop) (t : table) : Prop :=
  ∃ env t0 calls, tableCreate env = some t0 ∧ (∀ c ∈ calls, P c) ∧ run t0 calls = some t

/-- No restriction on the calls. -/
def Call.any (_ : Call) : Prop := True

/-- The allocator serves the call (`cli_malloc` and `strdup` succeed). -/
def Call.served : Call → Prop
  | Call.insert env _ _ => env.serves
  | Call.update env _ _ => env.serves
  | Call.remove _ => True

/-- The call has a non-NULL key and, when it carries a value, a value `>= 0`. -/
def Call.keyedNonNeg : Call → Prop
  | Call.insert _ key value => key ≠ none ∧ 0 ≤ value
  | Call.update _ key new_value => key ≠ none ∧ 0 ≤ new_value
  | Call.remove key => key ≠ none

/-- A `tableInsert` call does not carry the value -1; the other calls are
unrestricted. -/
def Call.insertNotSentinel : Call → Prop
  | Call.insert _ _ value => value ≠ -1
  | Call.update _ _ _ => True
  | Call.remove _ => True

/-- Neither a `tableInsert` call nor a `tableUpdate` call carries the value
-1. -/
def Call.valueNotSentinel : Call → Prop
  | Call.insert _ _ value => value ≠ -1
  | Call.update _ _ new_value => new_value ≠ -1
  | Call.remove _ => True

/-- The chain holds a tombstone. -/
def HasTombstone (t : table) : Prop := ∃ e ∈ t.tableHead, isTombstone e = true

/-! ## Sample surroundings and tables -/

/-- The surroundings in which every allocation succeeds, for either build. -/
def servingEnv (debug : Bool) : Env :=
  { CL_DEBUG := debug, cli_calloc := true, cli_malloc := true, strdup := true }

/-- The table `tableInsert(t, "a", 0)` makes of the fresh table. -/
def zeroTable : table :=
  { tableHead := [{ key := some "a", value := 0 }], tableLast := true, flags := false }

/-- A table of two live entries whose keys differ only in case. -/
def fooTable : table :=
  { tableHead := [{ key := some "Foo", value := 3 }, { key := some "foo", value := 4 }],
    tableLast := true, flags := false }

/-- A table whose only entry is live, with key "abc". -/
def abcTable : table :=
  { tableHead := [{ key := some "abc", value := 1 }], tableLast := true, flags := false }

/-- A table whose only entry is a tombstone. -/
def tombTable : table :=
  { tableHead := [{ key := none, value := 1 }], tableLast := true, flags := true }

/-- The calls of the scenario that come before the insert of "xyz". -/
def scenarioStart (env : Env) : List Call :=
  [Call.insert env (some "abc") 1, Call.insert env (some "def") 2, Call.remove (some "abc")]

/-- The table the calls of `scenarioStart` leave. -/
def scenarioTable : table :=
  { tableHead := [{ key := none, value := 1 }, { key := some "def", value := 2 }],
    tableLast := true, flags := true }

/-- The table of the scenario had "xyz" been written into the deleted slot. -/
def scenarioReused : table :=
  { tableHead := [{ key := some "xyz", value := 3 }, { key := some "def", value := 2 }],
    tableLast := true, flags := true }

/-- A table with a live entry ahead of two tombstones, the flag set. -/
def twoTombTable : table :=
  { tableHead := [{ key := some "def", value := 2 }, { key := none, value := 1 },
                  { key := none, value := 5 }],
    tableLast := true, flags := true }

/-- A table with two live entries for one key that store different values. -/
def clashTable : table :=
  { tableHead := [{ key := some "a", value := 0 }, { key := some "a", value := 7 }],
    tableLast := true, flags := false }

/-- A table whose live entry stores the sentinel -1. -/
def sentinelTable : table :=
  { tableHead := [{ key := some "a", value := -1 }], tableLast := true, flags := false }

/-- A table with the flag set and no tombstone in the chain. -/
def staleFlagTable : table :=
  { tableHead := [{ key := some "a", value := 0 }, { key := some "a", value := 0 }],
    tableLast := true, flags := true }

/-- Calls that lead from the fresh table to `staleFlagTable`. -/
def staleFlagCalls (env : Env) : List Call :=
  [Call.insert env (some "a") 0, Call.insert env (some "b") 1, Call.remove (some "b"),
   Call.insert env (some "a") 0]

/-! ## Lemmas on the library functions and the loops -/

theorem strcasecmpAux_eq_zero (a b : List Char) :
    strcasecmpAux a b = 0 ↔ a.map tolower = b.map tolower := by
  induction a generalizing b with
  | nil => cases b <;> simp [strcasecmpAux]
  | cons x s ih =>
    cases b with
    | nil => simp [strcasecmpAux]
    | cons y r =>
      by_cases h : tolower x = tolower y
      · simp [strcasecmpAux, h, ih]
      · have hne : ((tolower x).toNat : Int) - ((tolower y).toNat : Int) ≠ 0 := by
          intro h0
          apply h
          apply Char.ext
          apply UInt32.ext
          have : (tolower x).toNat = (tolower y).toNat := by omega
          exact this
        simp [strcasecmpAux, h, hne]

theorem strcasecmp_live (s k : String) :
    strcasecmp (some s) (some k) = some (strcasecmpAux s.data k.data) := rfl

theorem strcasecmp_null (k : Option String) : strcasecmp none k = none := by
  cases k <;> rfl

theorem strcasecmpAux_zero_iff_caseEq (s k : String) :
    strcasecmpAux s.data k.data = 0 ↔ caseEq s k = true := by
  simp [caseEq, strcasecmpAux_eq_zero]

theorem findLoop_cons_live (k s : String) (v : Int) (rest : List tableEntry) :
    findLoop k ({ key := some s, value := v } :: rest)
      = if caseEq s k = true then some v else findLoop k rest := by
  simp only [findLoop, strcasecmp_live, strcasecmpAux_zero_iff_caseEq]

theorem findLoop_cons_null (k : String) (v : Int) (rest : List tableEntry) :
    findLoop k ({ key := none, value := v } :: rest) = none := by
  simp [findLoop, strcasecmp_null]

theorem findLoop_noTombstone (k : String) (chain : List tableEntry)
    (h : ∀ e ∈ chain, isTombstone e = false) :
    findLoop k chain =
      some (match chain.find? (keyMatches k) with
            | some e => e.value
            | none => -1) := by
  induction chain with
  | nil => rfl
  | cons e rest ih =>
    obtain ⟨key, v⟩ := e
    cases key with
    | none => simpa [isTombstone] using h _ (List.mem_cons_self _ _)
    | some s =>
      have ih1 := ih fun x hx => h x (List.mem_cons_of_mem _ hx)
      rw [findLoop_cons_live]
      by_cases hm : caseEq s k = true
      · simp [List.find?, keyMatches, hm]
      · simp [List.find?, keyMatches, hm, ih1]

theorem tableFind_noTombstone (t : table) (k : String) (h : NoTombstone t) :
    tableFind t (some k) =
      some (match t.tableHead.find? (keyMatches k) with
            | some e => e.value
            | none => -1) := by
  unfold tableFind
  cases hc : t.tableHead with
  | nil => rfl
  | cons e rest =>
    have h1 : ∀ x ∈ e :: rest, isTombstone x = false := by
      intro x hx
      exact h x (by rw [hc]; exact hx)
    simpa using findLoop_noTombstone k (e :: rest) h1

theorem find_none_of_absent (k : String) (chain : List tableEntry)
    (h : ∀ e ∈ chain, keyMatches k e = false) : chain.find? (keyMatches k) = none := by
  rw [List.find?_eq_none]
  intro e he
  simp [h e he]

theorem tableFind_absent (t : table) (k : String) (hnt : NoTombstone t)
    (hno : ∀ e ∈ t.tableHead, keyMatches k e = false) : tableFind t (some k) = some (-1) := by
  rw [tableFind_noTombstone t k hnt, find_none_of_absent k _ hno]

theorem reuseLoop_noTombstone (env : Env) (key : Option String) (value : Int)
    (chain : List tableEntry) (h : ∀ e ∈ chain, isTombstone e = false) :
    reuseLoop env key value chain = some none := by
  induction chain with
  | nil => rfl
  | cons e rest ih =>
    obtain ⟨ek, ev⟩ := e
    cases ek with
    | none => simpa [isTombstone] using h _ (List.mem_cons_self _ _)
    | some s =>
      simp [reuseLoop, ih fun x hx => h x (List.mem_cons_of_mem _ hx)]

theorem appendEntry_serves (env : Env) (t : table) (flags : Bool) (k : String) (v : Int)
    (hs : env.serves) (hl : LastValid t) :
    appendEntry env t flags (some k) v =
      some (v, { tableHead := t.tableHead ++ [{ key := some k, value := v }],
                 tableLast := true, flags := flags }) := by
  obtain ⟨hm, hd⟩ := hs
  unfold appendEntry
  cases hc : t.tableHead with
  | nil => simp [hm, hd, strdup]
  | cons e rest =>
    have : t.tableLast = true := hl (by simp [hc])
    simp [hm, hd, strdup, this]

/-- An insert of a key that no entry matches, on a table without tombstone,
appends the pair at the tail and leaves the flag clear. -/
theorem tableInsert_absent (env : Env) (t : table) (k : String) (v : Int)
    (hnt : NoTombstone t) (hno : ∀ e ∈ t.tableHead, keyMatches k e = false)
    (hs : env.serves) (hd : env.CL_DEBUG = true → v ≠ -1) (hl : LastValid t) :
    tableInsert env t (some k) v =
      some (v, { tableHead := t.tableHead ++ [{ key := some k, value := v }],
                 tableLast := true, flags := false }) := by
  have hdbg : (env.CL_DEBUG && v == -1) = false := by
    cases hc : env.CL_DEBUG with
    | false => rfl
    | true => simpa using hd hc
  unfold tableInsert
  rw [tableFind_absent t k hnt hno]
  cases hf : t.flags with
  | false => simp [hdbg, appendEntry_serves env t false k v hs hl]
  | true =>
    simp [hdbg, reuseLoop_noTombstone env (some k) v t.tableHead hnt,
      appendEntry_serves env t false k v hs hl]

theorem iterateLoop_eq_foldl {σ : Type} (callback : String → Int → σ → σ)
    (chain : List tableEntry) (s : σ) :
    iterateLoop callback chain s =
      (livePairs chain).foldl (fun acc p => callback p.1 p.2 acc) s := by
  induction chain generalizing s with
  | nil => rfl
  | cons e rest ih =>
    obtain ⟨ek, ev⟩ := e
    cases ek with
    | none => simpa [iterateLoop, livePairs] using ih s
    | some k => simpa [iterateLoop, livePairs] using ih (callback k ev s)

theorem tableIterate_eq_foldl {σ : Type} (callback : String → Int → σ → σ) (t : table) (s : σ) :
    tableIterate (some t) callback s =
      (livePairs t.tableHead).foldl (fun acc p => callback p.1 p.2 acc) s := by
  simp only [tableIterate]
  rw [← iterateLoop_eq_foldl]
  cases hc : t.tableHead with
  | nil => rfl
  | cons e rest => rfl

theorem foldl_record (l init : List (String × Int)) :
    l.foldl (fun acc p => record p.1 p.2 acc) init = init ++ l := by
  induction l generalizing init with
  | nil => simp
  | cons p rest ih =>
    rw [List.foldl_cons, ih]
    simp [record]

theorem visits_eq_livePairs (t : table) : visits (some t) = livePairs t.tableHead := by
  unfold visits
  rw [tableIterate_eq_foldl, foldl_record]
  simp

theorem livePairs_map_entryOf (calls : List (String × Int)) :
    livePairs (calls.map entryOf) = calls := by
  induction calls with
  | nil => rfl
  | cons c rest ih =>
    simp only [livePairs] at ih
    simp [livePairs, entryOf, ih]

theorem insertAll_distinct (env : Env) (hs : env.serves) (calls : List (String × Int)) :
    ∀ (ps : List (String × Int)) (t : table), t.tableHead = ps.map entryOf → LastValid t →
      (ps ++ calls).Pairwise (fun a b => caseEq a.1 b.1 = false) →
      (env.CL_DEBUG = true → ∀ c ∈ calls, c.2 ≠ -1) →
      ∃ t1, insertAll env t calls = some t1 ∧ t1.tableHead = (ps ++ calls).map entryOf := by
  induction calls with
  | nil =>
    intro ps t ht _ _ _
    exact ⟨t, rfl, by simpa using ht⟩
  | cons c rest ih =>
    intro ps t ht hl hp hd
    have hnt : NoTombstone t := by
      intro e he
      rw [ht] at he
      obtain ⟨p, _, rfl⟩ := List.mem_map.1 he
      rfl
    have hno : ∀ e ∈ t.tableHead, keyMatches c.1 e = false := by
      intro e he
      rw [ht] at he
      obtain ⟨p, hpm, rfl⟩ := List.mem_map.1 he
      have := (List.pairwise_append.1 hp).2.2 p hpm c (List.mem_cons_self _ _)
      simpa [keyMatches, entryOf] using this
    have hins := tableInsert_absent env t c.1 c.2 hnt hno hs
      (fun h => hd h c (List.mem_cons_self _ _)) hl
    have hp1 : ((ps ++ [c]) ++ rest).Pairwise (fun a b => caseEq a.1 b.1 = false) := by
      simpa using hp
    obtain ⟨t1, h1, h2⟩ := ih (ps ++ [c])
      { tableHead := t.tableHead ++ [{ key := some c.1, value := c.2 }],
        tableLast := true, flags := false }
      (by simp [ht, entryOf]) (fun _ => rfl) hp1
      (fun h x hx => hd h x (List.mem_cons_of_mem _ hx))
    refine ⟨t1, ?_, by simpa using h2⟩
    simp only [insertAll, hins]
    exact h1

theorem strcasecmp_live_ne_zero (s k : String) (h : caseEq s k = false) :
    strcasecmpAux s.data k.data ≠ 0 := by
  rw [Ne, strcasecmpAux_zero_iff_caseEq, h]
  simp

/-- The scan of `tableUpdate` and the scan of `tableFind` on a chain in which no
live entry matches the key: both run off the end, or both stop at the first
tombstone with no result. -/
theorem updateLoop_absent (k : String) (v : Int) (chain : List tableEntry)
    (hno : ∀ e ∈ chain, keyMatches k e = false) :
    (updateLoop k v chain = some none ∧ findLoop k chain = some (-1)) ∨
    (updateLoop k v chain = none ∧ findLoop k chain = none) := by
  induction chain with
  | nil => exact Or.inl ⟨rfl, rfl⟩
  | cons e rest ih =>
    obtain ⟨ek, ev⟩ := e
    cases ek with
    | none => exact Or.inr ⟨by simp [updateLoop, strcasecmp_null], findLoop_cons_null k ev rest⟩
    | some s =>
      have hs : caseEq s k = false := by
        simpa [keyMatches] using hno _ (List.mem_cons_self _ _)
      have hne := strcasecmp_live_ne_zero s k hs
      rcases ih fun x hx => hno x (List.mem_cons_of_mem _ hx) with ⟨h1, h2⟩ | ⟨h1, h2⟩
      · exact Or.inl ⟨by simp [updateLoop, strcasecmp_live, hne, h1],
          by simp [findLoop_cons_live, hs, h2]⟩
      · exact Or.inr ⟨by simp [updateLoop, strcasecmp_live, hne, h1],
          by simp [findLoop_cons_live, hs, h2]⟩

/-- The scan of `tableUpdate` on a chain without tombstone that holds a match:
the value of the first matching entry is overwritten, nothing else changes. -/
theorem updateLoop_present (k : String) (v : Int) (chain : List tableEntry)
    (hnt : ∀ e ∈ chain, isTombstone e = false) (hm : ∃ e ∈ chain, keyMatches k e = true) :
    ∃ pre e post, chain = pre ++ e :: post ∧ (∀ x ∈ pre, keyMatches k x = false) ∧
      keyMatches k e = true ∧
      updateLoop k v chain = some (some (pre ++ { e with value := v } :: post)) := by
  induction chain with
  | nil => simp at hm
  | cons e rest ih =>
    obtain ⟨ek, ev⟩ := e
    cases ek with
    | none => simpa [isTombstone] using hnt _ (List.mem_cons_self _ _)
    | some s =>
      by_cases hs : caseEq s k = true
      · refine ⟨[], { key := some s, value := ev }, rest, rfl, by simp, by simpa [keyMatches], ?_⟩
        have h0 := (strcasecmpAux_zero_iff_caseEq s k).2 hs
        simp [updateLoop, strcasecmp_live, h0]
      · have hs1 : caseEq s k = false := by simpa using hs
        have hm1 : ∃ e ∈ rest, keyMatches k e = true := by
          obtain ⟨x, hx, hxm⟩ := hm
          rcases List.mem_cons.1 hx with rfl | hx1
          · simp [keyMatches, hs1] at hxm
          · exact ⟨x, hx1, hxm⟩
        obtain ⟨pre, e, post, h1, h2, h3, h4⟩ :=
          ih (fun x hx => hnt x (List.mem_cons_of_mem _ hx)) hm1
        refine ⟨{ key := some s, value := ev } :: pre, e, post, by simp [h1], ?_, h3, ?_⟩
        · intro x hx
          rcases List.mem_cons.1 hx with rfl | hx1
          · simpa [keyMatches] using hs1
          · exact h2 x hx1
        · have hne := strcasecmp_live_ne_zero s k hs1
          simp [updateLoop, strcasecmp_live, hne, h4]

theorem keyMatches_congr (k1 k2 : String) (h : caseEq k1 k2 = true) :
    keyMatches k1 = keyMatches k2 := by
  funext e
  obtain ⟨ek, ev⟩ := e
  cases ek with
  | none => rfl
  | some s =>
    have h1 : k1.data.map tolower = k2.data.map tolower := by simpa [caseEq] using h
    simp [keyMatches, caseEq, h1]

/-- The loop of `tableRemove` on a chain without tombstone: every matching
entry loses its key, and the flag is set when there was one. -/
theorem removeLoop_noTombstone (k : String) (chain : List tableEntry)
    (hnt : ∀ e ∈ chain, isTombstone e = false) (flags : Bool) :
    removeLoop k flags chain =
      some (chain.map (entomb k), flags || chain.any (keyMatches k)) := by
  induction chain generalizing flags with
  | nil => simp [removeLoop]
  | cons e rest ih =>
    obtain ⟨ek, ev⟩ := e
    cases ek with
    | none => simpa [isTombstone] using hnt _ (List.mem_cons_self _ _)
    | some s =>
      have ih1 := ih fun x hx => hnt x (List.mem_cons_of_mem _ hx)
      by_cases hs : caseEq s k = true
      · have h0 := (strcasecmpAux_zero_iff_caseEq s k).2 hs
        simp [removeLoop, strcasecmp_live, h0, ih1, entomb, keyMatches, hs]
      · have hs1 : caseEq s k = false := by simpa using hs
        have hne := strcasecmp_live_ne_zero s k hs1
        simp [removeLoop, strcasecmp_live, hne, ih1, entomb, keyMatches, hs1]

theorem tableRemove_noTombstone (t : table) (k : String) (hnt : NoTombstone t) :
    tableRemove t (some k) =
      some { t with tableHead := t.tableHead.map (entomb k),
                    flags := t.flags || t.tableHead.any (keyMatches k) } := by
  simp only [tableRemove]
  cases hc : t.tableHead with
  | nil =>
    obtain ⟨h, l, f⟩ := t
    simp only at hc
    subst hc
    simp
  | cons e rest =>
    rw [← hc, removeLoop_noTombstone k t.tableHead hnt]
    simp [hc]

/-- After the loop of `tableRemove` has run over a chain that held a match, the
loop of `tableFind` for the same key reaches a NULL key. -/
theorem findLoop_entomb (k : String) (chain : List tableEntry)
    (hnt : ∀ e ∈ chain, isTombstone e = false) (hm : ∃ e ∈ chain, keyMatches k e = true) :
    findLoop k (chain.map (entomb k)) = none := by
  induction chain with
  | nil => simp at hm
  | cons e rest ih =>
    obtain ⟨ek, ev⟩ := e
    cases ek with
    | none => simpa [isTombstone] using hnt _ (List.mem_cons_self _ _)
    | some s =>
      by_cases hs : caseEq s k = true
      · simp [entomb, keyMatches, hs, findLoop_cons_null]
      · have hs1 : caseEq s k = false := by simpa using hs
        have hm1 : ∃ e ∈ rest, keyMatches k e = true := by
          obtain ⟨x, hx, hxm⟩ := hm
          rcases List.mem_cons.1 hx with rfl | hx1
          · simp [keyMatches, hs1] at hxm
          · exact ⟨x, hx1, hxm⟩
        have ih1 := ih (fun x hx => hnt x (List.mem_cons_of_mem _ hx)) hm1
        simp [entomb, keyMatches, hs1, findLoop_cons_live, ih1]

/-- On every table without tombstone that holds a match for the key,
`tableRemove` keeps the number of entries and the following `tableFind` for
that key has no result. -/
theorem tableFind_tableRemove_none (t : table) (k : String) (hnt : NoTombstone t)
    (hm : ∃ e ∈ t.tableHead, keyMatches k e = true) :
    ∃ t1, tableRemove t (some k) = some t1 ∧
      t1.tableHead.length = t.tableHead.length ∧ tableFind t1 (some k) = none := by
  refine ⟨_, tableRemove_noTombstone t k hnt, by simp, ?_⟩
  have hne : t.tableHead ≠ [] := by
    obtain ⟨e, he, _⟩ := hm
    exact List.ne_nil_of_mem he
  simp [tableFind, hne, findLoop_entomb k t.tableHead hnt hm]

/-! ## The claims -/

theorem fooTable_noTombstone : NoTombstone fooTable := by
  intro e he
  simp [fooTable] at he
  rcases he with rfl | rfl <;> rfl

/-- C1: on a table that holds no tombstone, `tableFind` returns -1 when the key
is NULL and when the table is empty; otherwise it returns the value of the
first entry, in chain order from the head, whose key equals the query key
ignoring ASCII case, and -1 when no entry matches. -/
theorem tableFind_first_match (t : table) (h : NoTombstone t) :
    tableFind t none = some (-1) ∧
    (∀ key, t.tableHead = [] → tableFind t key = some (-1)) ∧
    (∀ k e, t.tableHead.find? (keyMatches k) = some e →
      tableFind t (some k) = some e.value) ∧
    (∀ k, t.tableHead.find? (keyMatches k) = none → tableFind t (some k) = some (-1)) := by
  refine ⟨rfl, ?_, ?_, ?_⟩
  · intro key he
    cases key with
    | none => rfl
    | some k => simp [tableFind, he]
  · intro k e he
    rw [tableFind_noTombstone t k h, he]
  · intro k he
    rw [tableFind_noTombstone t k h, he]

theorem tableFind_first_match_witness :
    NoTombstone fooTable ∧ tableFind fooTable (some "FOO") = some 3 :=
  ⟨fooTable_noTombstone,
   (tableFind_first_match fooTable fooTable_noTombstone).2.2.1 "FOO"
     { key := some "Foo", value := 3 } (by decide)⟩

/-- C2: the code at the failing input.  The table made by inserting "a" with
value 0 is reachable by `tableInsert` alone; on it `tableInsert(t, "a", 7)`
returns 7, because the duplicate test `v > 0` takes the stored 0 for a missing
key, and `tableFind` on the resulting table still returns 0 for "a". -/
theorem tableInsert_then_find_stale (debug : Bool) :
    tableCreate (servingEnv debug) = some tableZero ∧
    tableInsert (servingEnv debug) tableZero (some "a") 0 = some (0, zeroTable) ∧
    ∃ t, tableInsert (servingEnv debug) zeroTable (some "a") 7 = some (7, t) ∧
      tableFind t (some "a") = some 0 := by
  cases debug <;> exact ⟨rfl, rfl, _, rfl, rfl⟩

/-- C3: the code at the failing input.  After `tableInsert(t, "a", 0)` on the
fresh table, `tableInsert(t, "a", 7)` does not return -1: it returns 7 and
appends a second entry for "a" to the chain. -/
theorem tableInsert_conflict_accepted (debug : Bool) :
    tableFind tableZero (some "a") = some (-1) ∧
    tableInsert (servingEnv debug) tableZero (some "a") 0 = some (0, zeroTable) ∧
    tableInsert (servingEnv debug) zeroTable (some "a") 7 =
      some (7, { tableHead := [{ key := some "a", value := 0 }, { key := some "a", value := 7 }],
                 tableLast := true, flags := false }) := by
  cases debug <;> exact ⟨rfl, rfl, rfl⟩

/-- C4: the code at the failing input.  After `tableInsert(t, "a", 0)` on the
fresh table, the same call again returns 0 but is not a no-op: it appends a
second entry ("a", 0) to the chain. -/
theorem tableInsert_duplicate_appended (debug : Bool) :
    tableInsert (servingEnv debug) tableZero (some "a") 0 = some (0, zeroTable) ∧
    tableInsert (servingEnv debug) zeroTable (some "a") 0 =
      some (0, { tableHead := [{ key := some "a", value := 0 }, { key := some "a", value := 0 }],
                 tableLast := true, flags := false }) := by
  cases debug <;> exact ⟨rfl, rfl⟩

/-- C5: the code at the failing input.  `tableRemove(t, "abc")` on the table
holding only "abc" keeps the entry as a tombstone, and `tableFind(t, "abc")`
then hands the NULL key of that entry to `strcasecmp`: the call has no
result, where the claim has it return -1. -/
theorem tableFind_after_remove_faults :
    NoTombstone abcTable ∧ tableFind abcTable (some "abc") = some 1 ∧
    tableRemove abcTable (some "abc") = some tombTable ∧
    tombTable.tableHead.length = abcTable.tableHead.length ∧
    tableFind tombTable (some "abc") = none := by
  refine ⟨?_, rfl, rfl, rfl, rfl⟩
  intro e he
  simp [abcTable] at he
  subst he
  rfl

/-- C6: the code at the failing input.  On a table whose only entry is a
tombstone, the scans of `tableFind`, `tableUpdate`, `tableRemove` and (through
its `tableFind`) `tableInsert` all pass the NULL key to `strcasecmp`: none of
the four calls has a result. -/
theorem scans_compare_null_key (env : Env) (v : Int) :
    strcasecmp none (some "abc") = none ∧
    tableFind tombTable (some "abc") = none ∧
    tableUpdate env tombTable (some "abc") v = none ∧
    tableRemove tombTable (some "abc") = none ∧
    tableInsert env tombTable (some "abc") v = none :=
  ⟨rfl, rfl, rfl, rfl, rfl⟩

/-- C7: for every table, `tableIterate` calls the callback exactly once for each
entry whose key is non-NULL, with the key and value of that entry, in chain
order from the head, and never for a tombstone (the state the callback builds
is the fold of the callback over the live pairs; a recording callback logs
exactly the live pairs).  It makes no call for a NULL table or an empty one.
For a table built from `tableCreate` by `tableInsert` calls with keys that
pairwise differ ignoring case, the visits are the inserted pairs in insertion
order. -/
theorem tableIterate_visits_live_in_order :
    (∀ (σ : Type) (callback : String → Int → σ → σ) (s : σ) (t : table),
      tableIterate (some t) callback s =
        (livePairs t.tableHead).foldl (fun acc p => callback p.1 p.2 acc) s) ∧
    (∀ t : table, visits (some t) = livePairs t.tableHead) ∧
    (∀ (σ : Type) (callback : String → Int → σ → σ) (s : σ),
      tableIterate none callback s = s) ∧
    (∀ (σ : Type) (callback : String → Int → σ → σ) (s : σ) (t : table),
      t.tableHead = [] → tableIterate (some t) callback s = s) ∧
    (∀ (env : Env) (t0 : table) (calls : List (String × Int)),
      tableCreate env = some t0 → env.serves →
      calls.Pairwise (fun a b => caseEq a.1 b.1 = false) →
      (env.CL_DEBUG = true → ∀ c ∈ calls, c.2 ≠ -1) →
      ∃ t, insertAll env t0 calls = some t ∧ visits (some t) = calls) := by
  refine ⟨fun σ cb s t => tableIterate_eq_foldl cb t s, visits_eq_livePairs,
    fun σ cb s => rfl, ?_, ?_⟩
  · intro σ cb s t ht
    simp [tableIterate, ht]
  · intro env t0 calls hc hs hp hd
    have ht0 : t0 = tableZero := by
      unfold tableCreate at hc
      split at hc
      · exact (Option.some.inj hc).symm
      · exact absurd hc (by simp)
    subst ht0
    obtain ⟨t, h1, h2⟩ := insertAll_distinct env hs calls [] tableZero rfl
      (fun h => absurd rfl h) (by simpa using hp) hd
    refine ⟨t, h1, ?_⟩
    rw [visits_eq_livePairs, h2]
    simpa using livePairs_map_entryOf calls

theorem tableIterate_visits_live_in_order_witness :
    ∃ t, insertAll (servingEnv true) tableZero [("abc", 1), ("Def", 2)] = some t ∧
      visits (some t) = [("abc", 1), ("Def", 2)] :=
  tableIterate_visits_live_in_order.2.2.2.2 (servingEnv true) tableZero
    [("abc", 1), ("Def", 2)] rfl ⟨rfl, rfl⟩ (by decide) (by decide)

/-- C8: when the key matches no live entry, `tableUpdate(t, k, v2)` has the
outcome of `tableInsert(t, k, v2)`: the same returned value and the same
resulting table, entries, order and flag.  On a table without tombstone whose
`tableLast` is usable, with the allocator serving the call and the assert on
the value passing, both calls return `v2` and leave one and the same table. -/
theorem tableUpdate_absent_eq_tableInsert (env : Env) (t : table) (k : String) (v2 : Int)
    (hno : ∀ e ∈ t.tableHead, keyMatches k e = false) :
    tableUpdate env t (some k) v2 = tableInsert env t (some k) v2 ∧
    (NoTombstone t → LastValid t → env.serves → (env.CL_DEBUG = true → v2 ≠ -1) →
      ∃ t1, tableInsert env t (some k) v2 = some (v2, t1) ∧
        tableUpdate env t (some k) v2 = some (v2, t1)) := by
  have heq : tableUpdate env t (some k) v2 = tableInsert env t (some k) v2 := by
    simp only [tableUpdate]
    cases hc : t.tableHead with
    | nil => rfl
    | cons e rest =>
      rw [← hc]
      have hne : t.tableHead.isEmpty = false := by simp [hc]
      rcases updateLoop_absent k v2 t.tableHead hno with ⟨h1, _⟩ | ⟨h1, h2⟩
      · simp [hne, h1]
      · have hf : tableFind t (some k) = none := by simp [tableFind, hne, h2]
        simp [hne, h1, tableInsert, hf]
  refine ⟨heq, ?_⟩
  intro hnt hl hs hd
  have hins := tableInsert_absent env t k v2 hnt hno hs hd hl
  exact ⟨_, hins, heq.trans hins⟩

theorem tableUpdate_absent_eq_tableInsert_witness :
    tableUpdate (servingEnv true) fooTable (some "bar") 9 =
      tableInsert (servingEnv true) fooTable (some "bar") 9 ∧
    ∃ t1, tableInsert (servingEnv true) fooTable (some "bar") 9 = some (9, t1) ∧
      tableUpdate (servingEnv true) fooTable (some "bar") 9 = some (9, t1) :=
  ⟨(tableUpdate_absent_eq_tableInsert (servingEnv true) fooTable "bar" 9 (by decide)).1,
   (tableUpdate_absent_eq_tableInsert (servingEnv true) fooTable "bar" 9 (by decide)).2
     fooTable_noTombstone (fun _ => rfl) ⟨rfl, rfl⟩ (by decide)⟩

/-- C9: on a table without tombstone in which the key matches an entry,
`tableUpdate(t, k, v2)` returns `v2` and overwrites the value of the first
matching entry; the number of entries, every key, the order, every other value,
the flag and `tableLast` stay as they were, and `tableIterate` visits the same
keys in the same order before and after. -/
theorem tableUpdate_present_in_place (env : Env) (t : table) (k : String) (v2 : Int)
    (hnt : NoTombstone t) (hm : ∃ e ∈ t.tableHead, keyMatches k e = true) :
    ∃ pre e post t1,
      t.tableHead = pre ++ e :: post ∧ (∀ x ∈ pre, keyMatches k x = false) ∧
      keyMatches k e = true ∧
      tableUpdate env t (some k) v2 = some (v2, t1) ∧
      t1.tableHead = pre ++ { key := e.key, value := v2 } :: post ∧
      t1.flags = t.flags ∧ t1.tableLast = t.tableLast ∧
      t1.tableHead.length = t.tableHead.length ∧
      t1.tableHead.map (fun x => x.key) = t.tableHead.map (fun x => x.key) ∧
      (visits (some t1)).map Prod.fst = (visits (some t)).map Prod.fst := by
  obtain ⟨pre, e, post, h1, h2, h3, h4⟩ := updateLoop_present k v2 t.tableHead hnt hm
  have hne : t.tableHead.isEmpty = false := by simp [h1]
  have hkeys : (pre ++ { key := e.key, value := v2 } :: post).map (fun x => x.key)
      = t.tableHead.map (fun x => x.key) := by simp [h1]
  refine ⟨pre, e, post, { t with tableHead := pre ++ { key := e.key, value := v2 } :: post },
    h1, h2, h3, ?_, rfl, rfl, rfl, ?_, hkeys, ?_⟩
  · simp [tableUpdate, hne, h4]
  · simp [h1]
  · rw [visits_eq_livePairs, visits_eq_livePairs]
    simp only [h1, livePairs, List.filterMap_append, List.filterMap_cons, List.map_append]
    cases e.key <;> simp

theorem tableUpdate_present_in_place_witness :
    ∃ pre e post t1,
      fooTable.tableHead = pre ++ e :: post ∧ (∀ x ∈ pre, keyMatches "FOO" x = false) ∧
      keyMatches "FOO" e = true ∧
      tableUpdate (servingEnv false) fooTable (some "FOO") 8 = some (8, t1) ∧
      t1.tableHead = pre ++ { key := e.key, value := 8 } :: post ∧
      t1.flags = fooTable.flags ∧ t1.tableLast = fooTable.tableLast ∧
      t1.tableHead.length = fooTable.tableHead.length ∧
      t1.tableHead.map (fun x => x.key) = fooTable.tableHead.map (fun x => x.key) ∧
      (visits (some t1)).map Prod.fst = (visits (some fooTable)).map Prod.fst :=
  tableUpdate_present_in_place (servingEnv false) fooTable "FOO" 8 fooTable_noTombstone
    ⟨{ key := some "foo", value := 4 }, by decide, by decide⟩

/-- C10: on a table without tombstone, two keys that are equal after ASCII case
folding get the same answer from `tableFind`; and after `tableInsert` of "Foo"
with a value `v > 0` into the fresh table, `tableFind` returns `v` for "foo"
and for "FOO". -/
theorem tableFind_case_insensitive :
    (∀ (t : table) (k1 k2 : String), NoTombstone t → caseEq k1 k2 = true →
      ∃ v, tableFind t (some k1) = some v ∧ tableFind t (some k2) = some v) ∧
    (∀ (env : Env) (t0 : table) (v : Int), tableCreate env = some t0 → env.serves → v > 0 →
      ∃ t, tableInsert env t0 (some "Foo") v = some (v, t) ∧
        tableFind t (some "foo") = some v ∧ tableFind t (some "FOO") = some v) := by
  constructor
  · intro t k1 k2 hnt h
    refine ⟨_, tableFind_noTombstone t k1 hnt, ?_⟩
    rw [tableFind_noTombstone t k2 hnt, keyMatches_congr k1 k2 h]
  · intro env t0 v hc hs hv
    have ht0 : t0 = tableZero := by
      unfold tableCreate at hc
      split at hc
      · exact (Option.some.inj hc).symm
      · exact absurd hc (by simp)
    subst ht0
    have hins := tableInsert_absent env tableZero "Foo" v
      (fun e he => by simp [tableZero] at he) (fun e he => by simp [tableZero] at he) hs
      (fun _ => by omega) (fun h => absurd rfl h)
    refine ⟨_, hins, ?_, ?_⟩
    · have hce : caseEq "Foo" "foo" = true := by decide
      simp [tableFind, tableZero, findLoop_cons_live, hce]
    · have hce : caseEq "Foo" "FOO" = true := by decide
      simp [tableFind, tableZero, findLoop_cons_live, hce]

theorem tableFind_case_insensitive_witness :
    (∃ v, tableFind fooTable (some "fOo") = some v ∧ tableFind fooTable (some "FoO") = some v) ∧
    ∃ t, tableInsert (servingEnv true) tableZero (some "Foo") 5 = some (5, t) ∧
      tableFind t (some "foo") = some 5 ∧ tableFind t (some "FOO") = some 5 :=
  ⟨tableFind_case_insensitive.1 fooTable "fOo" "FoO" fooTable_noTombstone (by decide),
   tableFind_case_insensitive.2 (servingEnv true) tableZero 5 rfl ⟨rfl, rfl⟩ (by decide)⟩

/-- C11: for every table, `tableFind` with a NULL key returns -1, `tableUpdate`
with a NULL key returns -1 for every value and leaves the table as it was, and
`tableRemove` with a NULL key leaves the table as it was. -/
theorem null_key_calls_are_noops (env : Env) (t : table) (x : Int) :
    tableFind t none = some (-1) ∧
    tableUpdate env t none x = some (-1, t) ∧
    tableRemove t none = some t :=
  ⟨rfl, rfl, rfl⟩

/-- C12, the claim at its input: with every allocation succeeding, in either
build, the first three calls of the scenario leave a tombstone at the head of
the chain, and `tableInsert` of "xyz" then has no result, so the scenario does
not run to its end. -/
theorem scenario_insert_xyz_faults :
    (run tableZero (scenarioStart (servingEnv false)) = some scenarioTable ∧
      run tableZero (scenarioStart (servingEnv false) ++
        [Call.insert (servingEnv false) (some "xyz") 3]) = none) ∧
    (run tableZero (scenarioStart (servingEnv true)) = some scenarioTable ∧
      run tableZero (scenarioStart (servingEnv true) ++
        [Call.insert (servingEnv true) (some "xyz") 3]) = none) :=
  ⟨⟨rfl, rfl⟩, ⟨rfl, rfl⟩⟩

/-- C12 as amended: from `tableCreate`, the calls insert "abc" 1, insert "def"
2 and remove "abc" each have a result and leave the chain (NULL, 1), ("def", 2)
with the flag set, on which `tableIterate` visits ("def", 2) alone.  The reuse
loop of `tableInsert` writes ("xyz", 3) into the head slot; on the chain it
leaves, `tableFind` gives -1 for "abc", 2 for "def", 3 for "xyz", and
`tableIterate` visits ("xyz", 3) before ("def", 2). -/
theorem scenario_reuse_by_design (debug : Bool) :
    tableCreate (servingEnv debug) = some tableZero ∧
    run tableZero (scenarioStart (servingEnv debug)) = some scenarioTable ∧
    visits (some scenarioTable) = [("def", 2)] ∧
    reuseLoop (servingEnv debug) (some "xyz") 3 scenarioTable.tableHead
      = some (some scenarioReused.tableHead) ∧
    tableFind scenarioReused (some "abc") = some (-1) ∧
    tableFind scenarioReused (some "def") = some 2 ∧
    tableFind scenarioReused (some "xyz") = some 3 ∧
    visits (some scenarioReused) = [("xyz", 3), ("def", 2)] := by
  cases debug <;> exact ⟨rfl, rfl, rfl, rfl, rfl, rfl, rfl, rfl⟩

/-- C13: the code at the failing input.  Two `tableInsert` calls with the
non-NULL key "a" and the values 0 and 7 lead from `tableCreate` to a table with
two live entries whose keys are equal and whose values differ. -/
theorem reachable_key_with_two_values (debug : Bool) :
    Reachable Call.keyedNonNeg clashTable ∧
    ∃ e1 ∈ clashTable.tableHead, ∃ e2 ∈ clashTable.tableHead,
      e1.key = some "a" ∧ e2.key = some "a" ∧ caseEq "a" "a" = true ∧ e1.value ≠ e2.value := by
  constructor
  · refine ⟨servingEnv debug, tableZero,
      [Call.insert (servingEnv debug) (some "a") 0, Call.insert (servingEnv debug) (some "a") 7],
      rfl, ?_, ?_⟩
    · intro c hc
      simp at hc
      rcases hc with rfl | rfl <;> simp [Call.keyedNonNeg]
    · cases debug <;> rfl
  · exact ⟨{ key := some "a", value := 0 }, by simp [clashTable],
      { key := some "a", value := 7 }, by simp [clashTable], rfl, rfl, by decide, by decide⟩

/-- C15: on a table without tombstone, `tableRemove(t, k)` turns every entry
whose key matches `k` ignoring case into a tombstone (its value stays), keeps
every other entry as it is, keeps the number and the order of the entries and
`tableLast`, and sets the flag when an entry matched; when no entry matches,
the table, flag included, is unchanged. -/
theorem tableRemove_entombs_every_match (t : table) (k : String) (hnt : NoTombstone t) :
    ∃ t1, tableRemove t (some k) = some t1 ∧
      t1.tableHead = t.tableHead.map (entomb k) ∧
      (∀ e, keyMatches k e = true → entomb k e = { key := none, value := e.value }) ∧
      (∀ e, keyMatches k e = false → entomb k e = e) ∧
      t1.tableHead.length = t.tableHead.length ∧
      t1.tableLast = t.tableLast ∧
      ((∃ e ∈ t.tableHead, keyMatches k e = true) → t1.flags = true) ∧
      ((∀ e ∈ t.tableHead, keyMatches k e = false) → t1 = t) := by
  refine ⟨_, tableRemove_noTombstone t k hnt, rfl, ?_, ?_, by simp, rfl, ?_, ?_⟩
  · intro e he
    simp [entomb, he]
  · intro e he
    simp [entomb, he]
  · rintro ⟨e, he, hm⟩
    have : t.tableHead.any (keyMatches k) = true := List.any_eq_true.2 ⟨e, he, hm⟩
    simp [this]
  · intro hno
    have hany : t.tableHead.any (keyMatches k) = false := by
      rw [List.any_eq_false]
      intro e he
      simp [hno e he]
    have hmap : t.tableHead.map (entomb k) = t.tableHead := by
      conv_rhs => rw [← List.map_id t.tableHead]
      apply List.map_congr_left
      intro e he
      simp [entomb, hno e he]
    obtain ⟨h, l, f⟩ := t
    simp only at hany hmap
    simp [hany, hmap]

theorem tableRemove_entombs_every_match_witness :
    ∃ t1, tableRemove fooTable (some "FOO") = some t1 ∧
      t1.tableHead = fooTable.tableHead.map (entomb "FOO") ∧
      (∀ e, keyMatches "FOO" e = true → entomb "FOO" e = { key := none, value := e.value }) ∧
      (∀ e, keyMatches "FOO" e = false → entomb "FOO" e = e) ∧
      t1.tableHead.length = fooTable.tableHead.length ∧
      t1.tableLast = fooTable.tableLast ∧
      ((∃ e ∈ fooTable.tableHead, keyMatches "FOO" e = true) → t1.flags = true) ∧
      ((∀ e ∈ fooTable.tableHead, keyMatches "FOO" e = false) → t1 = fooTable) :=
  tableRemove_entombs_every_match fooTable "FOO" fooTable_noTombstone

/-- C16: the code at the failing input.  The table has the flag set, a live
entry "def" and two tombstones behind it, and "xyz" matches no live entry; the
reuse loop would write into the first tombstone, but `tableInsert` has no
result for any value, because its `tableFind` compares the NULL key first. -/
theorem tableInsert_reuse_unreached (env : Env) (v : Int) :
    twoTombTable.flags = true ∧ HasTombstone twoTombTable ∧
    (∀ e ∈ twoTombTable.tableHead, keyMatches "xyz" e = false) ∧
    reuseLoop (servingEnv false) (some "xyz") v twoTombTable.tableHead =
      some (some [{ key := some "def", value := 2 }, { key := some "xyz", value := v },
                  { key := none, value := 5 }]) ∧
    tableFind twoTombTable (some "xyz") = none ∧
    tableInsert env twoTombTable (some "xyz") v = none := by
  refine ⟨rfl, ⟨{ key := none, value := 1 }, by simp [twoTombTable], rfl⟩, by decide,
    rfl, rfl, rfl⟩

/-! ## What a call that has a result did to the table -/

theorem reuseLoop_some_none (env : Env) (key : Option String) (v : Int)
    (chain : List tableEntry) (h : reuseLoop env key v chain = some none) :
    ∀ e ∈ chain, isTombstone e = false := by
  induction chain with
  | nil => simp
  | cons e rest ih =>
    obtain ⟨ek, ev⟩ := e
    cases ek with
    | none =>
      cases hd : strdup env key <;> simp [reuseLoop, hd] at h
    | some s =>
      cases hr : reuseLoop env key v rest with
      | none => simp [reuseLoop, hr] at h
      | some o =>
        cases o with
        | some c => simp [reuseLoop, hr] at h
        | none =>
          intro x hx
          rcases List.mem_cons.1 hx with rfl | hx1
          · rfl
          · exact ih hr x hx1

theorem reuseLoop_some_some (env : Env) (key : Option String) (v : Int)
    (chain c1 : List tableEntry) (h : reuseLoop env key v chain = some (some c1)) :
    ∃ pre e post k1, chain = pre ++ e :: post ∧ (∀ x ∈ pre, isTombstone x = false) ∧
      isTombstone e = true ∧ strdup env key = some k1 ∧
      c1 = pre ++ { key := k1, value := v } :: post := by
  induction chain generalizing c1 with
  | nil => simp [reuseLoop] at h
  | cons e rest ih =>
    obtain ⟨ek, ev⟩ := e
    cases ek with
    | none =>
      cases hd : strdup env key with
      | none => simp [reuseLoop, hd] at h
      | some k1 =>
        simp [reuseLoop, hd] at h
        exact ⟨[], { key := none, value := ev }, rest, k1, rfl, by simp, rfl, rfl, by simp [h]⟩
    | some s =>
      cases hr : reuseLoop env key v rest with
      | none => simp [reuseLoop, hr] at h
      | some o =>
        cases o with
        | none => simp [reuseLoop, hr] at h
        | some c =>
          simp [reuseLoop, hr] at h
          obtain ⟨pre, e, post, k1, h1, h2, h3, h4, h5⟩ := ih c hr
          refine ⟨{ key := some s, value := ev } :: pre, e, post, k1, by simp [h1], ?_, h3, h4,
            by simp [← h, h5]⟩
          intro x hx
          rcases List.mem_cons.1 hx with rfl | hx1
          · rfl
          · exact h2 x hx1

theorem appendEntry_some (env : Env) (t t1 : table) (f : Bool) (key : Option String)
    (v r : Int) (h : appendEntry env t f key v = some (r, t1)) :
    t1.flags = f ∧
    (t1.tableHead = t.tableHead ∨
      ∃ k1, strdup env key = some k1 ∧
        t1.tableHead = t.tableHead ++ [{ key := k1, value := v }]) := by
  unfold appendEntry at h
  cases hd : strdup env key with
  | none =>
    cases hc : t.tableHead with
    | nil =>
      cases hm : env.cli_malloc <;> simp [hd, hc, hm] at h
      obtain ⟨_, rfl⟩ := h
      exact ⟨rfl, Or.inl rfl⟩
    | cons e rest =>
      cases hl : t.tableLast <;> cases hm : env.cli_malloc <;> simp [hd, hc, hm, hl] at h
      obtain ⟨_, rfl⟩ := h
      exact ⟨rfl, Or.inl rfl⟩
  | some k1 =>
    cases hc : t.tableHead with
    | nil =>
      cases hm : env.cli_malloc <;> simp [hd, hc, hm] at h
      · obtain ⟨_, rfl⟩ := h
        exact ⟨rfl, Or.inl rfl⟩
      · obtain ⟨_, rfl⟩ := h
        exact ⟨rfl, Or.inr ⟨k1, rfl, rfl⟩⟩
    | cons e rest =>
      cases hl : t.tableLast <;> cases hm : env.cli_malloc <;> simp [hd, hc, hm, hl] at h
      · obtain ⟨_, rfl⟩ := h
        exact ⟨rfl, Or.inl rfl⟩
      · obtain ⟨_, rfl⟩ := h
        exact ⟨rfl, Or.inr ⟨k1, rfl, rfl⟩⟩

/-- The three ways `tableInsert` returns: without touching the table (the key
was found with a positive value); from the reuse loop, a tombstone rewritten
and the flag still set; or through the append code, the flag clear. -/
theorem tableInsert_cases (env : Env) (t t1 : table) (key : Option String) (v r : Int)
    (h : tableInsert env t key v = some (r, t1)) :
    t1 = t ∨
    (t.flags = true ∧ t1.flags = true ∧
      ∃ pre e post k1, t.tableHead = pre ++ e :: post ∧ isTombstone e = true ∧
        strdup env key = some k1 ∧ t1.tableHead = pre ++ { key := k1, value := v } :: post) ∨
    ((t.flags = true → NoTombstone t) ∧ t1.flags = false ∧
      (t1.tableHead = t.tableHead ∨
        ∃ k1, strdup env key = some k1 ∧
          t1.tableHead = t.tableHead ++ [{ key := k1, value := v }])) := by
  unfold tableInsert at h
  cases hf : tableFind t key with
  | none => simp [hf] at h
  | some w =>
    simp only [hf] at h
    by_cases hw : w > 0
    · simp [hw] at h
      exact Or.inl h.2.symm
    · simp only [hw, if_false] at h
      cases hdb : (env.CL_DEBUG && v == -1) with
      | true => simp [hdb] at h
      | false =>
        simp only [hdb] at h
        cases hfl : t.flags with
        | false =>
          simp [hfl] at h
          obtain ⟨h1, h2⟩ := appendEntry_some env t t1 false key v r h
          exact Or.inr (Or.inr ⟨by simp, h1, h2⟩)
        | true =>
          simp only [hfl, if_true] at h
          cases hr : reuseLoop env key v t.tableHead with
          | none => simp [hr] at h
          | some o =>
            cases o with
            | none =>
              simp only [hr] at h
              obtain ⟨h1, h2⟩ := appendEntry_some env t t1 false key v r h
              exact Or.inr (Or.inr ⟨fun _ => reuseLoop_some_none env key v _ hr, h1, h2⟩)
            | some c =>
              simp [hr] at h
              obtain ⟨pre, e, post, k1, h1, _, h3, h4, h5⟩ :=
                reuseLoop_some_some env key v _ c hr
              refine Or.inr (Or.inl ⟨rfl, ?_, pre, e, post, k1, h1, h3, h4, ?_⟩)
              · rw [← h.2]
              · rw [← h.2]
                exact h5

theorem updateLoop_some_some (k : String) (v : Int) (chain c1 : List tableEntry)
    (h : updateLoop k v chain = some (some c1)) :
    ∃ pre e post, chain = pre ++ e :: post ∧
      c1 = pre ++ { key := e.key, value := v } :: post := by
  induction chain generalizing c1 with
  | nil => simp [updateLoop] at h
  | cons e rest ih =>
    cases hs : strcasecmp e.key (some k) with
    | none => simp [updateLoop, hs] at h
    | some r =>
      by_cases hr : r = 0
      · simp [updateLoop, hs, hr] at h
        exact ⟨[], e, rest, rfl, by simp [← h]⟩
      · cases hu : updateLoop k v rest with
        | none => simp [updateLoop, hs, hr, hu] at h
        | some o =>
          cases o with
          | none => simp [updateLoop, hs, hr, hu] at h
          | some c =>
            simp [updateLoop, hs, hr, hu] at h
            obtain ⟨pre, x, post, h1, h2⟩ := ih c hu
            exact ⟨e :: pre, x, post, by simp [h1], by simp [← h, h2]⟩

/-- The three ways `tableUpdate` returns: without touching the table (NULL
key), after overwriting one value in place, or through `tableInsert`. -/
theorem tableUpdate_cases (env : Env) (t t1 : table) (key : Option String) (v r : Int)
    (h : tableUpdate env t key v = some (r, t1)) :
    t1 = t ∨
    (∃ pre e post, t.tableHead = pre ++ e :: post ∧ t1.flags = t.flags ∧
      t1.tableHead = pre ++ { key := e.key, value := v } :: post) ∨
    tableInsert env t key v = some (r, t1) := by
  unfold tableUpdate at h
  cases key with
  | none =>
    simp at h
    exact Or.inl h.2.symm
  | some k =>
    simp only at h
    cases hc : t.tableHead.isEmpty with
    | true =>
      simp only [hc, if_true] at h
      exact Or.inr (Or.inr h)
    | false =>
      simp only [hc] at h
      cases hu : updateLoop k v t.tableHead with
      | none => simp [hu] at h
      | some o =>
        cases o with
        | none =>
          simp only [hu] at h
          exact Or.inr (Or.inr h)
        | some c =>
          simp [hu] at h
          obtain ⟨pre, e, post, h1, h2⟩ := updateLoop_some_some k v _ c hu
          refine Or.inr (Or.inl ⟨pre, e, post, h1, ?_, ?_⟩)
          · rw [← h.2]
          · rw [← h.2]
            exact h2

theorem removeLoop_some (k : String) (chain : List tableEntry) (f : Bool)
    (p : List tableEntry × Bool) (h : removeLoop k f chain = some p) :
    ∀ e ∈ chain, isTombstone e = false := by
  induction chain generalizing f p with
  | nil => simp
  | cons e rest ih =>
    obtain ⟨ek, ev⟩ := e
    cases ek with
    | none => simp [removeLoop, strcasecmp_null] at h
    | some s =>
      intro x hx
      rcases List.mem_cons.1 hx with rfl | hx1
      · rfl
      · simp only [removeLoop, strcasecmp_live] at h
        split at h
        · cases hr : removeLoop k true rest with
          | none => simp [hr] at h
          | some q => exact ih true q hr x hx1
        · cases hr : removeLoop k f rest with
          | none => simp [hr] at h
          | some q => exact ih f q hr x hx1

/-- The two ways `tableRemove` returns: without touching the table, or, on a
chain without tombstone, with every match turned into a tombstone. -/
theorem tableRemove_cases (t t1 : table) (key : Option String)
    (h : tableRemove t key = some t1) :
    t1 = t ∨
    (∃ k, key = some k ∧ NoTombstone t ∧
      t1 = { t with tableHead := t.tableHead.map (entomb k),
                    flags := t.flags || t.tableHead.any (keyMatches k) }) := by
  cases key with
  | none =>
    simp [tableRemove] at h
    exact Or.inl h.symm
  | some k =>
    have hnt : t.tableHead.isEmpty = false → NoTombstone t := by
      intro hc
      simp only [tableRemove, hc] at h
      cases hr : removeLoop k t.flags t.tableHead with
      | none => simp [hr] at h
      | some p => exact removeLoop_some k _ _ p hr
    cases hc : t.tableHead.isEmpty with
    | true =>
      simp [tableRemove, hc] at h
      exact Or.inl h.symm
    | false =>
      refine Or.inr ⟨k, rfl, hnt hc, ?_⟩
      rw [tableRemove_noTombstone t k (hnt hc)] at h
      exact (Option.some.inj h).symm

/-! ## Invariants of the reachable tables -/

theorem tableCreate_some (env : Env) (t0 : table) (h : tableCreate env = some t0) :
    t0 = tableZero := by
  unfold tableCreate at h
  split at h
  · exact (Option.some.inj h).symm
  · exact absurd h (by simp)

theorem step_insert_some (env : Env) (t t1 : table) (key : Option String) (v : Int)
    (h : step t (Call.insert env key v) = some t1) :
    ∃ r, tableInsert env t key v = some (r, t1) := by
  simp only [step] at h
  cases hi : tableInsert env t key v with
  | none => simp [hi] at h
  | some p =>
    obtain ⟨r, t2⟩ := p
    simp [hi] at h
    exact ⟨r, by rw [h]⟩

theorem step_update_some (env : Env) (t t1 : table) (key : Option String) (v : Int)
    (h : step t (Call.update env key v) = some t1) :
    ∃ r, tableUpdate env t key v = some (r, t1) := by
  simp only [step] at h
  cases hi : tableUpdate env t key v with
  | none => simp [hi] at h
  | some p =>
    obtain ⟨r, t2⟩ := p
    simp [hi] at h
    exact ⟨r, by rw [h]⟩

theorem run_preserves (P : Call → Prop) (Inv : table → Prop)
    (hstep : ∀ t c t1, P c → Inv t → step t c = some t1 → Inv t1) :
    ∀ (calls : List Call) (t t1 : table),
      (∀ c ∈ calls, P c) → Inv t → run t calls = some t1 → Inv t1 := by
  intro calls
  induction calls with
  | nil =>
    intro t t1 _ hi hr
    simp only [run, Option.some.injEq] at hr
    rw [← hr]
    exact hi
  | cons c rest ih =>
    intro t t1 hp hi hr
    simp only [run] at hr
    cases hs : step t c with
    | none => simp [hs] at hr
    | some t2 =>
      simp only [hs] at hr
      exact ih t2 t1 (fun x hx => hp x (List.mem_cons_of_mem _ hx))
        (hstep t c t2 (hp c (List.mem_cons_self _ _)) hi hs) hr

theorem reachable_invariant (P : Call → Prop) (Inv : table → Prop) (h0 : Inv tableZero)
    (hstep : ∀ t c t1, P c → Inv t → step t c = some t1 → Inv t1) (t : table)
    (h : Reachable P t) : Inv t := by
  obtain ⟨env, t0, calls, hc, hp, hr⟩ := h
  rw [tableCreate_some env t0 hc] at hr
  exact run_preserves P Inv hstep calls tableZero t hp h0 hr

/-- A call that carries no -1 stores no -1. -/
theorem step_keeps_values (t : table) (c : Call) (t1 : table) (hc : Call.valueNotSentinel c)
    (hi : ∀ e ∈ t.tableHead, e.value ≠ -1) (hs : step t c = some t1) :
    ∀ e ∈ t1.tableHead, e.value ≠ -1 := by
  have hins : ∀ env key v r, v ≠ -1 → tableInsert env t key v = some (r, t1) →
      ∀ e ∈ t1.tableHead, e.value ≠ -1 := by
    intro env key v r hv h
    rcases tableInsert_cases env t t1 key v r h with rfl | ⟨_, _, pre, e, post, k1, h1, _, _, h2⟩ |
      ⟨_, _, h2 | ⟨k1, _, h2⟩⟩
    · exact hi
    · intro x hx
      rw [h2] at hx
      rw [h1] at hi
      simp only [List.mem_append, List.mem_cons] at hx hi
      rcases hx with hx | rfl | hx
      · exact hi x (Or.inl hx)
      · exact hv
      · exact hi x (Or.inr (Or.inr hx))
    · rw [h2]
      exact hi
    · intro x hx
      rw [h2] at hx
      simp only [List.mem_append, List.mem_singleton] at hx
      rcases hx with hx | rfl
      · exact hi x hx
      · exact hv
  cases c with
  | insert env key v =>
    obtain ⟨r, h⟩ := step_insert_some env t t1 key v hs
    exact hins env key v r hc h
  | update env key v =>
    obtain ⟨r, h⟩ := step_update_some env t t1 key v hs
    rcases tableUpdate_cases env t t1 key v r h with rfl | ⟨pre, e, post, h1, _, h2⟩ | h3
    · exact hi
    · intro x hx
      rw [h2] at hx
      rw [h1] at hi
      simp only [List.mem_append, List.mem_cons] at hx hi
      rcases hx with hx | rfl | hx
      · exact hi x (Or.inl hx)
      · exact hc
      · exact hi x (Or.inr (Or.inr hx))
    · exact hins env key v r hc h3
  | remove key =>
    simp only [step] at hs
    rcases tableRemove_cases t t1 key hs with rfl | ⟨k, _, _, rfl⟩
    · exact hi
    · intro x hx
      simp only [List.mem_map] at hx
      obtain ⟨y, hy, rfl⟩ := hx
      have := hi y hy
      unfold entomb
      split <;> simpa using this

/-- What a result of the loop of `tableFind` says about the chain. -/
theorem findLoop_some (k : String) (chain : List tableEntry) (r : Int)
    (h : findLoop k chain = some r) :
    (∃ e ∈ chain, keyMatches k e = true ∧ e.value = r) ∨
    (r = -1 ∧ ∀ e ∈ chain, keyMatches k e = false) := by
  induction chain with
  | nil =>
    simp [findLoop] at h
    exact Or.inr ⟨h.symm, by simp⟩
  | cons e rest ih =>
    obtain ⟨ek, ev⟩ := e
    cases ek with
    | none => simp [findLoop_cons_null] at h
    | some s =>
      rw [findLoop_cons_live] at h
      by_cases hs : caseEq s k = true
      · simp [hs] at h
        exact Or.inl ⟨{ key := some s, value := ev }, List.mem_cons_self _ _,
          by simpa [keyMatches] using hs, h⟩
      · simp only [hs, if_false] at h
        rcases ih h with ⟨e, he, hm, hv⟩ | ⟨hr, hno⟩
        · exact Or.inl ⟨e, List.mem_cons_of_mem _ he, hm, hv⟩
        · refine Or.inr ⟨hr, ?_⟩
          intro x hx
          rcases List.mem_cons.1 hx with rfl | hx1
          · simpa [keyMatches] using hs
          · exact hno x hx1

theorem tableFind_some (t : table) (k : String) (r : Int)
    (h : tableFind t (some k) = some r) :
    (∃ e ∈ t.tableHead, keyMatches k e = true ∧ e.value = r) ∨
    (r = -1 ∧ ∀ e ∈ t.tableHead, keyMatches k e = false) := by
  simp only [tableFind] at h
  cases hc : t.tableHead with
  | nil =>
    simp [hc] at h
    exact Or.inr ⟨h.symm, by simp⟩
  | cons e rest =>
    rw [← hc]
    have hne : t.tableHead.isEmpty = false := by simp [hc]
    simp only [hne] at h
    exact findLoop_some k _ r h

/-! ## The claims on reachable tables -/

/-- C14, the claim at its input: a `tableInsert` with value 1 and a
`tableUpdate` with value -1, both allowed by the claim, lead from `tableCreate`
to a table whose live entry "a" stores -1, so `tableFind` returns -1 for a
key that a live entry matches. -/
theorem reachable_sentinel_stored :
    Reachable Call.insertNotSentinel sentinelTable ∧
    (∃ e ∈ sentinelTable.tableHead, keyMatches "a" e = true ∧ e.value = -1) ∧
    tableFind sentinelTable (some "a") = some (-1) := by
  refine ⟨⟨servingEnv true, tableZero,
    [Call.insert (servingEnv true) (some "a") 1, Call.update (servingEnv true) (some "a") (-1)],
    rfl, ?_, rfl⟩, ⟨{ key := some "a", value := -1 }, by simp [sentinelTable], by decide, rfl⟩,
    rfl⟩
  intro c hc
  simp at hc
  rcases hc with rfl | rfl <;> simp [Call.insertNotSentinel]

/-- C14 as amended: in every table reachable from `tableCreate` by `tableInsert`
calls with a value other than -1, `tableUpdate` calls with a value other than -1
and `tableRemove` calls, no entry stores -1; so when `tableFind` returns -1 for
a non-NULL key, no live entry matches that key, and on such a table without
tombstone `tableFind` returns -1 exactly when no live entry matches. -/
theorem reachable_no_sentinel_stored (t : table) (h : Reachable Call.valueNotSentinel t) :
    (∀ e ∈ t.tableHead, e.value ≠ -1) ∧
    (∀ k, tableFind t (some k) = some (-1) → ∀ e ∈ t.tableHead, keyMatches k e = false) ∧
    (NoTombstone t → ∀ k,
      (tableFind t (some k) = some (-1) ↔ ∀ e ∈ t.tableHead, keyMatches k e = false)) := by
  have hv : ∀ e ∈ t.tableHead, e.value ≠ -1 :=
    reachable_invariant Call.valueNotSentinel (fun t => ∀ e ∈ t.tableHead, e.value ≠ -1)
      (by simp [tableZero]) step_keeps_values t h
  have h2 : ∀ k, tableFind t (some k) = some (-1) →
      ∀ e ∈ t.tableHead, keyMatches k e = false := by
    intro k hf
    rcases tableFind_some t k (-1) hf with ⟨e, he, _, hev⟩ | ⟨_, hno⟩
    · exact absurd hev (hv e he)
    · exact hno
  exact ⟨hv, h2, fun hnt k => ⟨h2 k, tableFind_absent t k hnt⟩⟩

theorem reachable_no_sentinel_stored_witness :
    (∀ e ∈ fooTable.tableHead, e.value ≠ -1) ∧
    (∀ k, tableFind fooTable (some k) = some (-1) →
      ∀ e ∈ fooTable.tableHead, keyMatches k e = false) ∧
    (NoTombstone fooTable → ∀ k,
      (tableFind fooTable (some k) = some (-1) ↔
        ∀ e ∈ fooTable.tableHead, keyMatches k e = false)) :=
  reachable_no_sentinel_stored fooTable
    ⟨servingEnv true, tableZero,
      [Call.insert (servingEnv true) (some "Foo") 0, Call.insert (servingEnv true) (some "foo") 4,
       Call.remove none, Call.update (servingEnv true) (some "FOO") 3],
      rfl, by
        intro c hc
        simp at hc
        rcases hc with rfl | rfl | rfl | rfl <;> simp [Call.valueNotSentinel],
      by decide⟩

theorem tableInsert_flag_not_set (env : Env) (t t1 : table) (key : Option String) (v r : Int)
    (h : tableInsert env t key v = some (r, t1)) (hf : t1.flags = true) : t.flags = true := by
  rcases tableInsert_cases env t t1 key v r h with rfl | ⟨h1, _⟩ | ⟨_, h2, _⟩
  · exact hf
  · exact h1
  · rw [h2] at hf
    exact absurd hf (by simp)

theorem tableUpdate_flag_not_set (env : Env) (t t1 : table) (key : Option String) (v r : Int)
    (h : tableUpdate env t key v = some (r, t1)) (hf : t1.flags = true) : t.flags = true := by
  rcases tableUpdate_cases env t t1 key v r h with rfl | ⟨_, _, _, _, h2, _⟩ | h3
  · exact hf
  · rw [← h2]
    exact hf
  · exact tableInsert_flag_not_set env t t1 key v r h3 hf

theorem tableRemove_flag_set (t t1 : table) (key : Option String)
    (h : tableRemove t key = some t1) (hf : t1.flags = true) :
    t.flags = true ∨ HasTombstone t1 := by
  rcases tableRemove_cases t t1 key h with rfl | ⟨k, _, _, rfl⟩
  · exact Or.inl hf
  · simp only [Bool.or_eq_true] at hf
    rcases hf with hf | hf
    · exact Or.inl hf
    · obtain ⟨e, he, hm⟩ := List.any_eq_true.1 hf
      exact Or.inr ⟨entomb k e, List.mem_map.2 ⟨e, he, rfl⟩, by simp [entomb, hm, isTombstone]⟩

/-- A set flag goes with a chain that is not empty, across every call. -/
theorem step_keeps_flag_nonempty (t : table) (c : Call) (t1 : table) (_ : Call.any c)
    (hi : t.flags = true → t.tableHead ≠ []) (hs : step t c = some t1) :
    t1.flags = true → t1.tableHead ≠ [] := by
  have hins : ∀ env key v r, tableInsert env t key v = some (r, t1) →
      t1.flags = true → t1.tableHead ≠ [] := by
    intro env key v r h hf
    rcases tableInsert_cases env t t1 key v r h with rfl | ⟨_, _, pre, e, post, k1, _, _, _, h2⟩ |
      ⟨_, h2, _⟩
    · exact hi hf
    · rw [h2]
      simp
    · rw [h2] at hf
      exact absurd hf (by simp)
  cases c with
  | insert env key v =>
    obtain ⟨r, h⟩ := step_insert_some env t t1 key v hs
    exact hins env key v r h
  | update env key v =>
    obtain ⟨r, h⟩ := step_update_some env t t1 key v hs
    rcases tableUpdate_cases env t t1 key v r h with rfl | ⟨pre, e, post, _, _, h2⟩ | h3
    · exact hi
    · intro _
      rw [h2]
      simp
    · exact hins env key v r h3
  | remove key =>
    simp only [step] at hs
    intro hf
    rcases tableRemove_cases t t1 key hs with rfl | ⟨k, _, _, rfl⟩
    · exact hi hf
    · simp only [Bool.or_eq_true] at hf
      intro hnil
      have hnil1 : t.tableHead = [] := by simpa using hnil
      rcases hf with hf | hf
      · exact hi hf hnil1
      · rw [hnil1] at hf
        simp at hf

theorem staleFlagTable_reachable (debug : Bool) : Reachable Call.any staleFlagTable :=
  ⟨servingEnv debug, tableZero, staleFlagCalls (servingEnv debug), rfl,
    fun _ _ => trivial, by cases debug <;> rfl⟩

theorem staleFlagTable_noTombstone : ¬ HasTombstone staleFlagTable := by
  rintro ⟨e, he, ht⟩
  have hk : ∀ x ∈ staleFlagTable.tableHead, isTombstone x = false := by decide
  rw [hk e he] at ht
  exact absurd ht (by simp)

/-- C17, the claim at its input: the calls insert "a" 0, insert "b" 1, remove
"b", insert "a" 0 lead from `tableCreate` to a table whose flag is set although
no entry of the chain has a NULL key: the last insert reused the only tombstone
and returned from the reuse loop, which leaves the flag as it is. -/
theorem reachable_flag_without_tombstone :
    Reachable Call.any staleFlagTable ∧ staleFlagTable.flags = true ∧
    ¬ HasTombstone staleFlagTable :=
  ⟨staleFlagTable_reachable false, rfl, staleFlagTable_noTombstone⟩

/-- C17 as amended: in every table reachable from `tableCreate` by `tableInsert`,
`tableUpdate` and `tableRemove` calls, a set flag means that the chain is not
empty, a key of it having been nulled by an earlier `tableRemove`; a tombstone
need not remain.  `tableRemove` sets the flag only when it leaves a tombstone,
and `tableInsert` and `tableUpdate` never set it. -/
theorem flag_set_only_by_remove :
    (∀ t, Reachable Call.any t → t.flags = true → t.tableHead ≠ []) ∧
    (∀ t key t1, tableRemove t key = some t1 → t1.flags = true →
      t.flags = true ∨ HasTombstone t1) ∧
    (∀ env t key v r t1, tableInsert env t key v = some (r, t1) → t1.flags = true →
      t.flags = true) ∧
    (∀ env t key v r t1, tableUpdate env t key v = some (r, t1) → t1.flags = true →
      t.flags = true) := by
  refine ⟨?_, ?_, ?_, ?_⟩
  · intro t h
    exact reachable_invariant Call.any (fun t => t.flags = true → t.tableHead ≠ [])
      (by simp [tableZero]) step_keeps_flag_nonempty t h
  · intro t key t1 h hf
    exact tableRemove_flag_set t t1 key h hf
  · intro env t key v r t1 h hf
    exact tableInsert_flag_not_set env t t1 key v r h hf
  · intro env t key v r t1 h hf
    exact tableUpdate_flag_not_set env t t1 key v r h hf

theorem flag_set_only_by_remove_witness :
    staleFlagTable.tableHead ≠ [] ∧ (abcTable.flags = true ∨ HasTombstone tombTable) :=
  ⟨flag_set_only_by_remove.1 staleFlagTable (staleFlagTable_reachable true) rfl,
   flag_set_only_by_remove.2.1 abcTable (some "ABC") tombTable rfl rfl⟩

theorem strdup_served (env : Env) (key k1 : Option String) (hs : env.strdup = true)
    (h : strdup env key = some k1) : k1.isNone = false := by
  cases key with
  | none => simp [strdup] at h
  | some s =>
    simp [strdup, hs] at h
    rw [← h]
    rfl

theorem noTombstone_of_not_has (t : table) (h : ¬ HasTombstone t) : NoTombstone t := by
  intro e he
  cases hc : isTombstone e with
  | false => rfl
  | true => exact absurd ⟨e, he, hc⟩ h

/-- A tombstone goes with a set flag, across every call that `strdup` serves. -/
theorem step_keeps_tombstone_flagged (t : table) (c : Call) (t1 : table) (hc : Call.served c)
    (hi : HasTombstone t → t.flags = true) (hs : step t c = some t1) :
    HasTombstone t1 → t1.flags = true := by
  have hins : ∀ env key v r, env.serves → tableInsert env t key v = some (r, t1) →
      HasTombstone t1 → t1.flags = true := by
    intro env key v r hsv h ht
    rcases tableInsert_cases env t t1 key v r h with rfl | ⟨_, h1, _⟩ |
      ⟨hnt, _, h2 | ⟨k1, hk, h2⟩⟩
    · exact hi ht
    · exact h1
    · have ht0 : HasTombstone t := by
        obtain ⟨e, he, hte⟩ := ht
        exact ⟨e, by rw [← h2]; exact he, hte⟩
      have hf := hi ht0
      obtain ⟨e, he, hte⟩ := ht0
      rw [hnt hf e he] at hte
      exact absurd hte (by simp)
    · exfalso
      have hnt0 : NoTombstone t := by
        by_cases hf : t.flags = true
        · exact hnt hf
        · exact noTombstone_of_not_has t fun hh => hf (hi hh)
      obtain ⟨e, he, hte⟩ := ht
      rw [h2] at he
      simp only [List.mem_append, List.mem_singleton] at he
      rcases he with he | rfl
      · rw [hnt0 e he] at hte
        exact absurd hte (by simp)
      · have := strdup_served env key k1 hsv.2 hk
        simp [isTombstone, this] at hte
  cases c with
  | insert env key v =>
    obtain ⟨r, h⟩ := step_insert_some env t t1 key v hs
    exact hins env key v r hc h
  | update env key v =>
    obtain ⟨r, h⟩ := step_update_some env t t1 key v hs
    rcases tableUpdate_cases env t t1 key v r h with rfl | ⟨pre, e, post, h1, hf, h2⟩ | h3
    · exact hi
    · rintro ⟨x, hx, htx⟩
      rw [hf]
      apply hi
      rw [h2] at hx
      simp only [List.mem_append, List.mem_cons] at hx
      rcases hx with hx | rfl | hx
      · exact ⟨x, by rw [h1]; simp [hx], htx⟩
      · exact ⟨e, by rw [h1]; simp, htx⟩
      · exact ⟨x, by rw [h1]; simp [hx], htx⟩
    · exact hins env key v r hc h3
  | remove key =>
    simp only [step] at hs
    rcases tableRemove_cases t t1 key hs with rfl | ⟨k, _, hnt, rfl⟩
    · exact hi
    · rintro ⟨x, hx, htx⟩
      simp only [List.mem_map] at hx
      obtain ⟨y, hy, rfl⟩ := hx
      have hm : keyMatches k y = true := by
        cases hm : keyMatches k y with
        | true => rfl
        | false =>
          simp [entomb, hm] at htx
          rw [hnt y hy] at htx
          exact absurd htx (by simp)
      have : t.tableHead.any (keyMatches k) = true := List.any_eq_true.2 ⟨y, hy, hm⟩
      simp [this]

theorem tableInsert_clears_flag (env : Env) (t t1 : table) (key : Option String) (v r : Int)
    (h : tableInsert env t key v = some (r, t1)) (hf : t.flags = true)
    (hf1 : t1.flags = false) : NoTombstone t := by
  rcases tableInsert_cases env t t1 key v r h with rfl | ⟨_, h1, _⟩ | ⟨hnt, _, _⟩
  · rw [hf] at hf1
    exact absurd hf1 (by simp)
  · rw [h1] at hf1
    exact absurd hf1 (by simp)
  · exact hnt hf

/-- C18: in every table reachable from `tableCreate` by `tableInsert`,
`tableUpdate` and `tableRemove` calls whose allocations and string duplications
succeed, an entry with a NULL key goes with a set flag; and `tableInsert`
clears the flag only when the chain holds no tombstone. -/
theorem reachable_tombstone_flagged :
    (∀ t, Reachable Call.served t → HasTombstone t → t.flags = true) ∧
    (∀ env t key v r t1, tableInsert env t key v = some (r, t1) → t.flags = true →
      t1.flags = false → NoTombstone t) := by
  constructor
  · intro t h
    exact reachable_invariant Call.served (fun t => HasTombstone t → t.flags = true)
      (by
        rintro ⟨e, he, _⟩
        simp [tableZero] at he)
      step_keeps_tombstone_flagged t h
  · intro env t key v r t1 h hf hf1
    exact tableInsert_clears_flag env t t1 key v r h hf hf1

theorem reachable_tombstone_flagged_witness :
    scenarioTable.flags = true ∧ NoTombstone staleFlagTable :=
  ⟨reachable_tombstone_flagged.1 scenarioTable
      ⟨servingEnv true, tableZero, scenarioStart (servingEnv true), rfl, by
        intro c hc
        simp [scenarioStart] at hc
        rcases hc with rfl | rfl | rfl <;> simp [Call.served, Env.serves, servingEnv], rfl⟩
      ⟨{ key := none, value := 1 }, by simp [scenarioTable], rfl⟩,
   reachable_tombstone_flagged.2 (servingEnv true) staleFlagTable (some "b") 1 1
      { tableHead := staleFlagTable.tableHead ++ [{ key := some "b", value := 1 }],
        tableLast := true, flags := false } rfl rfl rfl⟩

theorem find_after_nonmatching (p : tableEntry → Bool) (pre l : List tableEntry)
    (h : ∀ x ∈ pre, p x = false) : (pre ++ l).find? p = l.find? p := by
  induction pre with
  | nil => rfl
  | cons x rest ih =>
    have hx : p x = false := h x (List.mem_cons_self _ _)
    simp only [List.cons_append, List.find?_cons, hx]
    exact ih fun y hy => h y (List.mem_cons_of_mem _ hy)

theorem caseEq_refl (k : String) : caseEq k k = true := by
  simp [caseEq]

theorem tableUpdate_of_absent (env : Env) (t : table) (k : String) (v2 : Int)
    (hno : ∀ e ∈ t.tableHead, keyMatches k e = false) :
    tableUpdate env t (some k) v2 = tableInsert env t (some k) v2 := by
  simp only [tableUpdate]
  cases hc : t.tableHead with
  | nil => rfl
  | cons e rest =>
    rw [← hc]
    have hne : t.tableHead.isEmpty = false := by simp [hc]
    rcases updateLoop_absent k v2 t.tableHead hno with ⟨h1, _⟩ | ⟨h1, h2⟩
    · simp [hne, h1]
    · have hf : tableFind t (some k) = none := by simp [tableFind, hne, h2]
      simp [hne, h1, tableInsert, hf]

/-- C19: on a table without tombstone whose `tableLast` is usable, with the
allocator serving the call, `tableUpdate(t, k, v2)` with a non-NULL key and a
value other than -1 returns `v2`, whether or not the key was present, and
`tableFind` on the resulting table returns `v2` for that key. -/
theorem tableUpdate_then_find (env : Env) (t : table) (k : String) (v2 : Int)
    (hnt : NoTombstone t) (hl : LastValid t) (hs : env.serves) (hv : v2 ≠ -1) :
    ∃ t1, tableUpdate env t (some k) v2 = some (v2, t1) ∧
      tableFind t1 (some k) = some v2 := by
  by_cases hm : ∃ e ∈ t.tableHead, keyMatches k e = true
  · obtain ⟨pre, e, post, h1, h2, h3, h4⟩ := updateLoop_present k v2 t.tableHead hnt hm
    have hne : t.tableHead.isEmpty = false := by simp [h1]
    refine ⟨{ t with tableHead := pre ++ { key := e.key, value := v2 } :: post }, ?_, ?_⟩
    · simp [tableUpdate, hne, h4]
    · have hnt1 : ∀ x ∈ pre ++ { key := e.key, value := v2 } :: post,
          isTombstone x = false := by
        intro x hx
        simp only [List.mem_append, List.mem_cons] at hx
        rcases hx with hx | rfl | hx
        · exact hnt x (by rw [h1]; simp [hx])
        · exact hnt e (by rw [h1]; simp)
        · exact hnt x (by rw [h1]; simp [hx])
      rw [tableFind_noTombstone _ k
        (show NoTombstone (table.mk _ t.tableLast t.flags) from hnt1)]
      have hme : keyMatches k { key := e.key, value := v2 } = true := h3
      simp only [find_after_nonmatching (keyMatches k) pre _ h2, List.find?_cons, hme]
  · have hno : ∀ e ∈ t.tableHead, keyMatches k e = false := by
      intro e he
      cases hc : keyMatches k e with
      | false => rfl
      | true => exact absurd ⟨e, he, hc⟩ hm
    have hins := tableInsert_absent env t k v2 hnt hno hs (fun _ => hv) hl
    refine ⟨_, (tableUpdate_of_absent env t k v2 hno).trans hins, ?_⟩
    have hnt1 : ∀ x ∈ t.tableHead ++ [{ key := some k, value := v2 }],
        isTombstone x = false := by
      intro x hx
      simp only [List.mem_append, List.mem_singleton] at hx
      rcases hx with hx | rfl
      · exact hnt x hx
      · rfl
    rw [tableFind_noTombstone _ k (show NoTombstone (table.mk _ true false) from hnt1)]
    have hme : keyMatches k { key := some k, value := v2 } = true := by
      simp [keyMatches, caseEq_refl]
    simp only [find_after_nonmatching (keyMatches k) t.tableHead _ hno, List.find?_cons, hme]

theorem tableUpdate_then_find_witness :
    (∃ t1, tableUpdate (servingEnv true) fooTable (some "FOO") 9 = some (9, t1) ∧
      tableFind t1 (some "FOO") = some 9) ∧
    (∃ t1, tableUpdate (servingEnv true) fooTable (some "bar") 0 = some (0, t1) ∧
      tableFind t1 (some "bar") = some 0) :=
  ⟨tableUpdate_then_find (servingEnv true) fooTable "FOO" 9 fooTable_noTombstone
      (fun _ => rfl) ⟨rfl, rfl⟩ (by decide),
   tableUpdate_then_find (servingEnv true) fooTable "bar" 0 fooTable_noTombstone
      (fun _ => rfl) ⟨rfl, rfl⟩ (by decide)⟩

end Table
